import Mathlib

/-!
Verification of the go-srf record codec and stream-navigation layer.

The byte stream is modelled as a `List Nat` of byte values; reading functions
consume a prefix of the list and return the rest, mirroring the forward-only
cursor of an `io.Reader`.  Machine integers are modelled as `Nat` with explicit
masks/mod where the Go code truncates (`uint32`, `uint64`, `& 0xFF`).  The
external zstd engine is modelled as an opaque `Codec` (an `encodeAll` and a
fallible `decodeAll`), exactly the interface the Go code uses; theorems that
need losslessness state it as an explicit hypothesis.  JSON marshalling of
metadata is abstracted by letting a metadata value carry its marshalled JSON
byte sequence.
-/

namespace GoSrf

/-- Errors surfaced by the codec.  `eof` is Go's `io.EOF` (clean boundary),
`unexpectedEOF` is `io.ErrUnexpectedEOF` (partial read inside `io.ReadFull`),
the rest mirror the package's named errors.  `outOfFuel` is a modelling
artifact of the fueled loops; every entry point passes enough fuel that it is
unreachable. -/
inductive Err where
  | eof
  | unexpectedEOF
  | invalidHeader
  | invalidZeroBits
  | invalidStartOffset
  | invalidCount
  | corruptFrame
  | outOfFuel
deriving DecidableEq, Repr

/-- Semantics of `io.ReadFull r buf` with `n = len(buf)` over a list reader:
returns exactly `n` bytes, `io.EOF` if no byte is available, and
`io.ErrUnexpectedEOF` if only part of the request is available. -/
def readFull (n : Nat) (s : List Nat) : Except Err (List Nat × List Nat) :=
  if s.length < n then
    if s.isEmpty then .error .eof else .error .unexpectedEOF
  else .ok (s.take n, s.drop n)

/-- Semantics of a single `src.Read(buf)` call with `n = len(buf)` over a list
reader (the `bytes.Reader` behavior): returns up to `n` bytes in one call, with
`io.EOF` only when no byte at all is available. -/
def readOnce (n : Nat) (s : List Nat) : Except Err (List Nat × List Nat) :=
  if n = 0 then .ok ([], s)
  else if s.isEmpty then .error .eof
  else .ok (s.take n, s.drop n)

/-- Little-endian encoding of `v` on `w` bytes (truncates like a Go integer
conversion when `v` does not fit). -/
def leEncode : Nat → Nat → List Nat
  | 0, _ => []
  | w + 1, v => v % 256 :: leEncode w (v / 256)

/-- Little-endian decoding of a byte list. -/
def leDecode : List Nat → Nat
  | [] => 0
  | b :: bs => b + 256 * leDecode bs

/-- The 4 magic bytes, ASCII "SRF0". -/
def magicBytes : List Nat := [83, 82, 70, 48]

/-- Opaque interface to the external zstd engine: `EncodeAll` and the fallible
`DecodeAll` (decode failure is `CorruptFrame`). -/
structure Codec where
  encodeAll : List Nat → List Nat
  decodeAll : List Nat → Except Err (List Nat)

/-- The logical record: type tag, metadata bytes (empty when absent), body. -/
structure Record where
  recordType : Nat
  meta : List Nat
  body : List Nat
deriving DecidableEq, Repr

/-- The type+flags header word computed by `RawWrite`:
`t := uint32(rType) & 0xFF`, and `t |= 1 << 31` when the body is compressed. -/
def headerWord (rType : Nat) (isCompressed : Bool) : Nat :=
  if isCompressed then (rType &&& 0xFF) ||| (0x01 <<< 31) else rType &&& 0xFF

/-- Embedding of `RawWrite`: the exact wire bytes of one record.  Field order:
magic, type+flags word, `uint32` meta length, `uint64` body length, meta bytes,
body bytes (all integers little-endian). -/
def RawWrite (rType : Nat) (rawMeta : List Nat) (rawRecord : List Nat)
    (isCompressed : Bool) : List Nat :=
  magicBytes ++ leEncode 4 (headerWord rType isCompressed) ++
    leEncode 4 rawMeta.length ++ leEncode 8 rawRecord.length ++
    rawMeta ++ rawRecord

/-- Embedding of `validateHeader`: reads 4 bytes and compares with the magic. -/
def validateHeader (s : List Nat) : Except Err (List Nat) :=
  match readFull 4 s with
  | .error e => .error e
  | .ok (buf, rest) => if buf = magicBytes then .ok rest else .error .invalidHeader

/-- Embedding of `record.read` / `Read`: decodes the header, checks the magic
and the reserved bits (`(v >> 16) & 0x7F`), then reads metadata (always
decompressed when present) and the body (decompressed iff bit 31 of the header
word is set).  Returns the record and the unconsumed rest of the stream. -/
def Read (c : Codec) (s : List Nat) : Except Err (Record × List Nat) :=
  match validateHeader s with
  | .error e => .error e
  | .ok s1 =>
  match readFull 4 s1 with
  | .error e => .error e
  | .ok (vb, s2) =>
  let v := leDecode vb
  if (v >>> 16) &&& 0x7F ≠ 0 then .error .invalidZeroBits
  else
  let rType := v &&& 0xFF
  let compressed := (v >>> 31) &&& 0x1 = 1
  match readFull 4 s2 with
  | .error e => .error e
  | .ok (mb, s3) =>
  let szMeta := leDecode mb
  match readFull 8 s3 with
  | .error e => .error e
  | .ok (db, s4) =>
  let szData := leDecode db
  match ((if szMeta > 0 then
      match readFull szMeta s4 with
      | .error e => .error e
      | .ok (buf, s5) =>
        match c.decodeAll buf with
        | .error e => .error e
        | .ok m => .ok (m, s5)
    else .ok ([], s4)) : Except Err (List Nat × List Nat)) with
  | .error e => .error e
  | .ok (meta, s6) =>
  if compressed then
    match readFull szData s6 with
    | .error e => .error e
    | .ok (buf, s7) =>
      match c.decodeAll buf with
      | .error e => .error e
      | .ok body => .ok ({ recordType := rType, meta := meta, body := body }, s7)
  else
    match readFull szData s6 with
    | .error e => .error e
    | .ok (body, s7) => .ok ({ recordType := rType, meta := meta, body := body }, s7)

/-- Embedding of `skipRead`: decodes and validates the header like `Read`, then
discards the meta and body blocks.  Each discard is a single `src.Read(buf)`
call (not `io.ReadFull`), exactly as in the source. -/
def skipRead (s : List Nat) : Except Err (List Nat) :=
  match validateHeader s with
  | .error e => .error e
  | .ok s1 =>
  match readFull 4 s1 with
  | .error e => .error e
  | .ok (vb, s2) =>
  let v := leDecode vb
  if (v >>> 16) &&& 0x7F ≠ 0 then .error .invalidZeroBits
  else
  match readFull 4 s2 with
  | .error e => .error e
  | .ok (mb, s3) =>
  let szMeta := leDecode mb
  match readFull 8 s3 with
  | .error e => .error e
  | .ok (db, s4) =>
  let szData := leDecode db
  match ((if szMeta > 0 then
      match readOnce szMeta s4 with
      | .error e => .error e
      | .ok (_, s5) => .ok s5
    else .ok s4) : Except Err (List Nat)) with
  | .error e => .error e
  | .ok s6 =>
  match ((if szData > 0 then
      match readOnce szData s6 with
      | .error e => .error e
      | .ok (_, s7) => .ok s7
    else .ok s6) : Except Err (List Nat)) with
  | .error e => .error e
  | .ok s8 => .ok s8

/-- Go `reflect.Kind` of a metadata value, as far as the nil-check in `Write`
cares: the kinds for which `reflect.Value.IsNil` is defined, plus the others
(struct, array, basic scalars ...) for which it panics. -/
inductive GoKind where
  | ptr
  | chan
  | func
  | iface
  | map
  | slice
  | rawPtr
  | struct
  | array
  | basic
deriving DecidableEq, Repr

/-- Kinds on which `reflect.Value.IsNil` is defined (no runtime panic): chan,
func, interface, map, pointer, slice, raw pointer — the `reflect` package
contract. -/
def nilable : GoKind → Bool
  | .ptr | .chan | .func | .iface | .map | .slice | .rawPtr => true
  | _ => false

/-- A Go `any` metadata argument: either the untyped nil interface, or a typed
value of some kind, carrying whether it is a nil value of that kind and its
marshalled JSON bytes (`json.Marshal` is abstracted: a JSON-serializable value
carries its own serialization). -/
inductive GoMeta where
  | nil
  | value (kind : GoKind) (isNilValue : Bool) (json : List Nat)
deriving DecidableEq, Repr

/-- Outcome of `Write`: a runtime panic (from `reflect.Value.IsNil` on a
non-nilable kind), or the bytes emitted to `dst`. -/
inductive WriteOutcome where
  | panicked
  | ok (bytes : List Nat)
deriving DecidableEq, Repr

/-- Embedding of `Write`: evaluates
`hasMeta := meta != nil && !reflect.ValueOf(meta).IsNil()` — which panics when
`meta` is a non-nil interface holding a value of a kind without a defined
`IsNil` — then marshals+compresses metadata when present, compresses the body
when requested, and delegates to `RawWrite`. -/
def Write (c : Codec) (recordType : Nat) (data : List Nat) (meta : GoMeta)
    (compress : Bool) : WriteOutcome :=
  match meta with
  | .nil =>
    let rawRecord := if compress then c.encodeAll data else data
    .ok (RawWrite recordType [] rawRecord compress)
  | .value k isNilValue json =>
    if nilable k then
      let hasMeta := !isNilValue
      let rawMeta := if hasMeta then c.encodeAll json else []
      let rawRecord := if compress then c.encodeAll data else data
      .ok (RawWrite recordType rawMeta rawRecord compress)
    else .panicked

/-- Embedding of `WriteRecord`: re-emits a `Record`; metadata (when non-empty)
is always compressed, the body is compressed iff `compress`. -/
def WriteRecord (c : Codec) (r : Record) (compress : Bool) : List Nat :=
  let hasMeta := !r.meta.isEmpty
  let rawMeta := if hasMeta then c.encodeAll r.meta else []
  let rawRecord := if compress then c.encodeAll r.body else r.body
  RawWrite r.recordType rawMeta rawRecord compress

/-- Loop of `Count`, fueled.  Each iteration fully reads one record; on `eof`
the accumulated total is returned, any other error aborts. -/
def countLoopF (c : Codec) : Nat → Int → List Nat → Except Err Int
  | 0, _, _ => .error .outOfFuel
  | fuel + 1, total, s =>
    match Read c s with
    | .error e => if e = Err.eof then .ok total else .error e
    | .ok (_, s1) => countLoopF c fuel (total + 1) s1

/-- Embedding of `Count`.  A successful `Read` consumes at least the 16 header
bytes, so `s.length + 1` fuel strictly bounds the number of iterations. -/
def Count (c : Codec) (s : List Nat) : Except Err Int :=
  countLoopF c (s.length + 1) 0 s

/-- Skip loop shared by `Extract` and `Copy`, fueled: a do-while loop that
calls `skipRead`, decrements `start`, and stops when it reaches 0. -/
def skipLoopF : Nat → Int → List Nat → Except Err (List Nat)
  | 0, _, _ => .error .outOfFuel
  | fuel + 1, start, s =>
    match skipRead s with
    | .error e => .error e
    | .ok s1 => if start - 1 = 0 then .ok s1 else skipLoopF fuel (start - 1) s1

/-- Collect loop of `Extract`, fueled: reads records, appending each to the
result, until `count` reaches 0; `eof` yields the partial result when
`allowPrematureEnd`, else the `eof` error. -/
def collectLoopF (c : Codec) (allow : Bool) :
    Nat → List Record → Int → List Nat → Except Err (List Record)
  | 0, _, _, _ => .error .outOfFuel
  | fuel + 1, acc, count, s =>
    match Read c s with
    | .error e => if e = Err.eof then (if allow then .ok acc else .error Err.eof)
                  else .error e
    | .ok (r, s1) =>
      if count - 1 = 0 then .ok (acc ++ [r])
      else collectLoopF c allow fuel (acc ++ [r]) (count - 1) s1

/-- Embedding of `Extract`: validates `start`/`count`, skips (note the guard
`start > 0`), then collects. -/
def Extract (c : Codec) (s : List Nat) (start count : Int) (allow : Bool) :
    Except Err (List Record) :=
  if start < 0 then .error .invalidStartOffset
  else if count < 1 then .error .invalidCount
  else
    match (if start > 0 then skipLoopF (s.length + 1) start s else .ok s) with
    | .error e => if e = Err.eof then (if allow then .ok [] else .error Err.eof)
                  else .error e
    | .ok s1 => collectLoopF c allow (s1.length + 1) [] count s1

/-- Copy loop of `Copy`, fueled: reads records and immediately re-emits each to
`dst` via `WriteRecord`; the returned list is the bytes written to `dst`. -/
def copyLoopF (c : Codec) (compress allow : Bool) :
    Nat → List Nat → Int → List Nat → Except Err (List Nat)
  | 0, _, _, _ => .error .outOfFuel
  | fuel + 1, out, count, s =>
    match Read c s with
    | .error e => if e = Err.eof then (if allow then .ok out else .error Err.eof)
                  else .error e
    | .ok (r, s1) =>
      let out1 := out ++ WriteRecord c r compress
      if count - 1 = 0 then .ok out1
      else copyLoopF c compress allow fuel out1 (count - 1) s1

/-- Embedding of `Copy`: validates `start`/`count`, skips — note the source
guards the skip loop with `start > 1`, unlike `Extract`'s `start > 0` — then
copies.  The result is the byte sequence written to `dst`. -/
def Copy (c : Codec) (s : List Nat) (start count : Int) (compress allow : Bool) :
    Except Err (List Nat) :=
  if start < 0 then .error .invalidStartOffset
  else if count < 1 then .error .invalidCount
  else
    match (if start > 1 then skipLoopF (s.length + 1) start s else .ok s) with
    | .error e => if e = Err.eof then (if allow then .ok [] else .error Err.eof)
                  else .error e
    | .ok s1 => copyLoopF c compress allow (s1.length + 1) [] count s1

/-! A second reader model for `skipRead`, needed to express its behavior on an
arbitrary `io.Reader`: the stream is a list of chunks, and one `Read` call
returns bytes from the first chunk only — legal `io.Reader` behavior even when
more bytes follow.  `io.ReadFull` (used for the header fields) loops over such
calls; the payload discards in `skipRead` do not. -/

/-- One `src.Read(buf)` call over a chunked reader: returns up to
`min n (first chunk)` bytes; `io.EOF` only with no chunks left. -/
def readOnceC (n : Nat) (cs : List (List Nat)) :
    Except Err (List Nat × List (List Nat)) :=
  match cs with
  | [] => if n = 0 then .ok ([], []) else .error .eof
  | chunk :: rest =>
    if n = 0 then .ok ([], chunk :: rest)
    else if n < chunk.length then .ok (chunk.take n, chunk.drop n :: rest)
    else .ok (chunk, rest)

/-- Semantics of `io.ReadFull` over a chunked reader: loops single reads until
`n` bytes are gathered; `eof` when nothing was read, `unexpectedEOF` when the
stream ends mid-request. -/
def readFullC (n : Nat) (cs : List (List Nat)) (started : Bool) :
    Except Err (List Nat × List (List Nat)) :=
  match cs with
  | [] => if n = 0 then .ok ([], [])
          else if started then .error .unexpectedEOF else .error .eof
  | chunk :: rest =>
    if n = 0 then .ok ([], chunk :: rest)
    else if n < chunk.length then .ok (chunk.take n, chunk.drop n :: rest)
    else
      match readFullC (n - chunk.length) rest (started || !chunk.isEmpty) with
      | .error e => .error e
      | .ok (bs, cs1) => .ok (chunk ++ bs, cs1)

/-- Embedding of `skipRead` over the chunked reader: identical control flow to
`skipRead`; header fields via `io.ReadFull` semantics, payload discards via a
single `Read` call, as in the source. -/
def skipReadC (cs : List (List Nat)) : Except Err (List (List Nat)) :=
  match readFullC 4 cs false with
  | .error e => .error e
  | .ok (buf, cs0) =>
  if buf ≠ magicBytes then .error .invalidHeader
  else
  match readFullC 4 cs0 false with
  | .error e => .error e
  | .ok (vb, cs1) =>
  let v := leDecode vb
  if (v >>> 16) &&& 0x7F ≠ 0 then .error .invalidZeroBits
  else
  match readFullC 4 cs1 false with
  | .error e => .error e
  | .ok (mb, cs2) =>
  let szMeta := leDecode mb
  match readFullC 8 cs2 false with
  | .error e => .error e
  | .ok (db, cs3) =>
  let szData := leDecode db
  match ((if szMeta > 0 then
      match readOnceC szMeta cs3 with
      | .error e => .error e
      | .ok (_, cs4) => .ok cs4
    else .ok cs3) : Except Err (List (List Nat))) with
  | .error e => .error e
  | .ok cs5 =>
  match ((if szData > 0 then
      match readOnceC szData cs5 with
      | .error e => .error e
      | .ok (_, cs6) => .ok cs6
    else .ok cs5) : Except Err (List (List Nat))) with
  | .error e => .error e
  | .ok cs7 => .ok cs7

/-! Derived notions used to state the claims. -/

/-- A lossless compression engine: decoding inverts encoding, and an encoded
frame is never empty (zstd frames always carry at least a header). -/
def GoodCodec (c : Codec) : Prop :=
  (∀ b, c.decodeAll (c.encodeAll b) = .ok b) ∧ (∀ b, c.encodeAll b ≠ [])

/-- The wire lengths of a record fit the `uint32` meta-length and `uint64`
body-length fields. -/
def FitsWire (c : Codec) (r : Record) (compress : Bool) : Prop :=
  (c.encodeAll r.meta).length < 2 ^ 32 ∧
  (if compress then (c.encodeAll r.body).length else r.body.length) < 2 ^ 64

/-- The record as it comes back from a read: the type field is truncated to
its low 8 bits on the wire. -/
def truncRec (r : Record) : Record :=
  { recordType := r.recordType % 256, meta := r.meta, body := r.body }

/-- A stream that is the concatenation of the given records, each written by
`WriteRecord` with its own body-compression setting. -/
def encodeRecords (c : Codec) : List (Record × Bool) → List Nat
  | [] => []
  | p :: rest => WriteRecord c p.1 p.2 ++ encodeRecords c rest

/-- A concrete lossless codec used to witness the theorems: prepends one tag
byte on encode, strips it on decode. -/
def tagCodec : Codec :=
  { encodeAll := fun b => 0 :: b
    decodeAll := fun f => match f with
      | [] => .error .corruptFrame
      | _ :: t => .ok t }

/-! Arithmetic bridges between the bitwise operations of the source and
div/mod arithmetic. -/

theorem land255 (x : Nat) : x &&& 0xFF = x % 256 :=
  Nat.and_pow_two_sub_one_eq_mod x 8

theorem land127 (x : Nat) : x &&& 0x7F = x % 128 :=
  Nat.and_pow_two_sub_one_eq_mod x 7

theorem land1 (x : Nat) : x &&& 0x1 = x % 2 :=
  Nat.and_pow_two_sub_one_eq_mod x 1

theorem shiftr_pow (x k : Nat) : x >>> k = x / 2 ^ k :=
  Nat.shiftRight_eq_div_pow x k

theorem one_shl_31 : (0x01 <<< 31) = 2 ^ 31 := by decide

theorem lor_flag (t : Nat) (h : t < 2 ^ 31) : t ||| (0x01 <<< 31) = t + 2 ^ 31 := by
  have h3 := Nat.mul_add_lt_is_or h 1
  rw [Nat.mul_one] at h3
  rw [one_shl_31, Nat.lor_comm, ← h3]
  omega

theorem headerWord_eq (r : Nat) (f : Bool) :
    headerWord r f = r % 256 + (if f then 2 ^ 31 else 0) := by
  cases f with
  | false => simp [headerWord, land255]
  | true =>
    simp only [headerWord, if_pos, land255]
    rw [lor_flag (r % 256) (by have := Nat.mod_lt r (y := 256) (by omega); omega)]

theorem two_pow_31 : (2 : Nat) ^ 31 = 2147483648 := by norm_num

theorem two_pow_16 : (2 : Nat) ^ 16 = 65536 := by norm_num

theorem headerWord_lt (r : Nat) (f : Bool) : headerWord r f < 2 ^ 32 := by
  rw [headerWord_eq]
  have := Nat.mod_lt r (y := 256) (by omega)
  cases f <;> simp [two_pow_31] <;> omega

theorem headerWord_low (r : Nat) (f : Bool) : headerWord r f &&& 0xFF = r % 256 := by
  rw [headerWord_eq, land255]
  have := Nat.mod_lt r (y := 256) (by omega)
  cases f with
  | false => simp
  | true => simp [two_pow_31]; omega

theorem headerWord_reserved (r : Nat) (f : Bool) :
    (headerWord r f >>> 16) &&& 0x7F = 0 := by
  rw [headerWord_eq, shiftr_pow, land127, two_pow_16]
  have := Nat.mod_lt r (y := 256) (by omega)
  cases f <;> simp [two_pow_31] <;> omega

theorem headerWord_flag (r : Nat) (f : Bool) :
    (headerWord r f >>> 31) &&& 0x1 = if f then 1 else 0 := by
  rw [headerWord_eq, shiftr_pow, land1, two_pow_31]
  have := Nat.mod_lt r (y := 256) (by omega)
  cases f <;> simp <;> omega

/-! Little-endian encode/decode lemmas. -/

theorem leEncode_length (w : Nat) : ∀ v, (leEncode w v).length = w := by
  induction w with
  | zero => intro v; rfl
  | succ n ih => intro v; simp [leEncode, ih]

theorem leDecode_leEncode (w : Nat) : ∀ v, v < 2 ^ (8 * w) →
    leDecode (leEncode w v) = v := by
  induction w with
  | zero => intro v h; simp at h; simp [h, leEncode, leDecode]
  | succ n ih =>
    intro v h
    have hm : (2 : Nat) ^ (8 * (n + 1)) = 2 ^ (8 * n) * 256 := by
      rw [Nat.mul_succ, pow_add]; norm_num
    rw [hm] at h
    have hd : v / 256 < 2 ^ (8 * n) := by omega
    simp only [leEncode, leDecode, ih (v / 256) hd]
    omega

/-! Reading the exact blocks that a writer laid down. -/

theorem readFull_append (n : Nat) (a r : List Nat) (h : a.length = n) :
    readFull n (a ++ r) = .ok (a, r) := by
  subst h
  have hlen : (a ++ r).length = a.length + r.length := List.length_append a r
  simp only [readFull, List.take_left, List.drop_left]
  rw [if_neg (by omega)]

theorem readOnce_append (n : Nat) (a r : List Nat) (h : a.length = n) :
    readOnce n (a ++ r) = .ok (a, r) := by
  subst h
  match a with
  | [] => simp [readOnce]
  | x :: t =>
    have hlen : ((x :: t) ++ r).length = (x :: t).length + r.length :=
      List.length_append (x :: t) r
    simp only [readOnce, List.take_left, List.drop_left]
    rw [if_neg (by simp), if_neg (by simp)]

theorem validateHeader_append (r : List Nat) :
    validateHeader (magicBytes ++ r) = .ok r := by
  have h4 : magicBytes.length = 4 := rfl
  simp [validateHeader, readFull_append 4 magicBytes r h4]

theorem validateHeader_nil : validateHeader [] = .error .eof := rfl

end GoSrf
namespace GoSrf

theorem leDecode_leEncode4 (v : Nat) (h : v < 2 ^ 32) : leDecode (leEncode 4 v) = v := by
  apply leDecode_leEncode
  have h32 : (2 : Nat) ^ (8 * 4) = 2 ^ 32 := by norm_num
  rw [h32]; exact h

theorem leDecode_leEncode8 (v : Nat) (h : v < 2 ^ 64) : leDecode (leEncode 8 v) = v := by
  apply leDecode_leEncode
  have h64 : (2 : Nat) ^ (8 * 8) = 2 ^ 64 := by norm_num
  rw [h64]; exact h

theorem Read_RawWrite (c : Codec) (rType : Nat) (flag : Bool)
    (rawMeta rawRecord ext : List Nat)
    (hm : rawMeta.length < 2 ^ 32) (hr : rawRecord.length < 2 ^ 64)
    (mm bb : List Nat)
    (hmeta : if rawMeta.isEmpty then mm = [] else c.decodeAll rawMeta = .ok mm)
    (hbody : if flag then c.decodeAll rawRecord = .ok bb else bb = rawRecord) :
    Read c (RawWrite rType rawMeta rawRecord flag ++ ext) =
      .ok ({ recordType := rType % 256, meta := mm, body := bb }, ext) := by
  have e1 : RawWrite rType rawMeta rawRecord flag ++ ext =
      magicBytes ++ (leEncode 4 (headerWord rType flag) ++ (leEncode 4 rawMeta.length ++
        (leEncode 8 rawRecord.length ++ (rawMeta ++ (rawRecord ++ ext))))) := by
    simp [RawWrite]
  rw [e1]
  simp only [Read, validateHeader_append,
    readFull_append 4 (leEncode 4 (headerWord rType flag)) _ (leEncode_length 4 _),
    readFull_append 4 (leEncode 4 rawMeta.length) _ (leEncode_length 4 _),
    readFull_append 8 (leEncode 8 rawRecord.length) _ (leEncode_length 8 _),
    leDecode_leEncode4 (headerWord rType flag) (headerWord_lt rType flag),
    leDecode_leEncode4 rawMeta.length hm,
    leDecode_leEncode8 rawRecord.length hr,
    headerWord_reserved, headerWord_low, headerWord_flag]
  rw [if_neg (by simp)]
  cases rawMeta with
  | nil =>
    have hmm : mm = [] := by simpa using hmeta
    subst hmm
    cases flag with
    | false =>
      have hbb : bb = rawRecord := by simpa using hbody
      subst hbb
      simp [readFull_append bb.length bb ext rfl]
    | true =>
      have hbb : c.decodeAll rawRecord = .ok bb := by simpa using hbody
      simp [readFull_append rawRecord.length rawRecord ext rfl, hbb]
  | cons m0 mt =>
    have hmm : c.decodeAll (m0 :: mt) = .ok mm := by simpa using hmeta
    cases flag with
    | false =>
      have hbb : bb = rawRecord := by simpa using hbody
      subst hbb
      have hmr : readFull (mt.length + 1) (m0 :: (mt ++ (bb ++ ext))) =
          .ok (m0 :: mt, bb ++ ext) := by
        simpa using readFull_append (mt.length + 1) (m0 :: mt) (bb ++ ext) (by simp)
      simp [hmr, hmm, readFull_append bb.length bb ext rfl]
    | true =>
      have hbb : c.decodeAll rawRecord = .ok bb := by simpa using hbody
      have hmr : readFull (mt.length + 1) (m0 :: (mt ++ (rawRecord ++ ext))) =
          .ok (m0 :: mt, rawRecord ++ ext) := by
        simpa using readFull_append (mt.length + 1) (m0 :: mt) (rawRecord ++ ext) (by simp)
      simp [hmr, hmm, readFull_append rawRecord.length rawRecord ext rfl, hbb]

end GoSrf
namespace GoSrf

theorem Read_nil (c : Codec) : Read c [] = .error .eof := rfl

theorem skipRead_nil : skipRead [] = .error .eof := rfl

theorem skipRead_RawWrite (rType : Nat) (flag : Bool) (rawMeta rawRecord ext : List Nat)
    (hm : rawMeta.length < 2 ^ 32) (hr : rawRecord.length < 2 ^ 64) :
    skipRead (RawWrite rType rawMeta rawRecord flag ++ ext) = .ok ext := by
  have e1 : RawWrite rType rawMeta rawRecord flag ++ ext =
      magicBytes ++ (leEncode 4 (headerWord rType flag) ++ (leEncode 4 rawMeta.length ++
        (leEncode 8 rawRecord.length ++ (rawMeta ++ (rawRecord ++ ext))))) := by
    simp [RawWrite]
  rw [e1]
  simp only [skipRead, validateHeader_append,
    readFull_append 4 (leEncode 4 (headerWord rType flag)) _ (leEncode_length 4 _),
    readFull_append 4 (leEncode 4 rawMeta.length) _ (leEncode_length 4 _),
    readFull_append 8 (leEncode 8 rawRecord.length) _ (leEncode_length 8 _),
    leDecode_leEncode4 (headerWord rType flag) (headerWord_lt rType flag),
    leDecode_leEncode4 rawMeta.length hm,
    leDecode_leEncode8 rawRecord.length hr,
    headerWord_reserved]
  rw [if_neg (by simp)]
  cases rawMeta with
  | nil =>
    cases rawRecord with
    | nil => simp [readOnce]
    | cons b0 bt =>
      have hbr : readOnce (bt.length + 1) (b0 :: (bt ++ ext)) = .ok (b0 :: bt, ext) := by
        simpa using readOnce_append (bt.length + 1) (b0 :: bt) ext (by simp)
      simp [hbr]
  | cons m0 mt =>
    cases rawRecord with
    | nil =>
      have hmr : readOnce (mt.length + 1) (m0 :: (mt ++ ext)) = .ok (m0 :: mt, ext) := by
        simpa using readOnce_append (mt.length + 1) (m0 :: mt) ext (by simp)
      simp [hmr]
    | cons b0 bt =>
      have hmr : readOnce (mt.length + 1) (m0 :: (mt ++ (b0 :: (bt ++ ext)))) =
          .ok (m0 :: mt, b0 :: (bt ++ ext)) := by
        simpa using readOnce_append (mt.length + 1) (m0 :: mt) ((b0 :: bt) ++ ext) (by simp)
      have hbr : readOnce (bt.length + 1) (b0 :: (bt ++ ext)) = .ok (b0 :: bt, ext) := by
        simpa using readOnce_append (bt.length + 1) (b0 :: bt) ext (by simp)
      simp [hmr, hbr]

end GoSrf
namespace GoSrf

theorem WriteRecord_eq (c : Codec) (r : Record) (f : Bool) :
    WriteRecord c r f =
      RawWrite r.recordType (if r.meta.isEmpty then [] else c.encodeAll r.meta)
        (if f then c.encodeAll r.body else r.body) f := by
  cases hM : r.meta.isEmpty <;> simp [WriteRecord, hM]

theorem Read_WriteRecord (c : Codec) (hg : GoodCodec c) (r : Record) (f : Bool)
    (hf : FitsWire c r f) (ext : List Nat) :
    Read c (WriteRecord c r f ++ ext) = .ok (truncRec r, ext) := by
  obtain ⟨hrt, hne⟩ := hg
  obtain ⟨hm, hb⟩ := hf
  rw [WriteRecord_eq]
  have h1 : (if r.meta.isEmpty then [] else c.encodeAll r.meta).length < 2 ^ 32 := by
    cases hM : r.meta.isEmpty with
    | true => simp
    | false => simpa [hM] using hm
  have h2 : (if f then c.encodeAll r.body else r.body).length < 2 ^ 64 := by
    cases f <;> simpa using hb
  have h3 : if (if r.meta.isEmpty then [] else c.encodeAll r.meta).isEmpty then
      r.meta = [] else
      c.decodeAll (if r.meta.isEmpty then [] else c.encodeAll r.meta) = .ok r.meta := by
    cases hM : r.meta.isEmpty with
    | true => simpa using hM
    | false => simp [hM, List.isEmpty_iff, hne r.meta, hrt r.meta]
  have h4 : if f then
      c.decodeAll (if f then c.encodeAll r.body else r.body) = .ok r.body else
      r.body = (if f then c.encodeAll r.body else r.body) := by
    cases f <;> simp [hrt]
  exact Read_RawWrite c r.recordType f _ _ ext h1 h2 r.meta r.body h3 h4

theorem skipRead_WriteRecord (c : Codec) (r : Record) (f : Bool)
    (hf : FitsWire c r f) (ext : List Nat) :
    skipRead (WriteRecord c r f ++ ext) = .ok ext := by
  obtain ⟨hm, hb⟩ := hf
  rw [WriteRecord_eq]
  have h1 : (if r.meta.isEmpty then [] else c.encodeAll r.meta).length < 2 ^ 32 := by
    cases hM : r.meta.isEmpty with
    | true => simp
    | false => simpa [hM] using hm
  have h2 : (if f then c.encodeAll r.body else r.body).length < 2 ^ 64 := by
    cases f <;> simpa using hb
  exact skipRead_RawWrite r.recordType f _ _ ext h1 h2

end GoSrf
namespace GoSrf

/-- All records of a list fit the wire-length fields. -/
def FitsAll (c : Codec) (rs : List (Record × Bool)) : Prop :=
  ∀ p ∈ rs, FitsWire c p.1 p.2

theorem RawWrite_length (t : Nat) (m b : List Nat) (f : Bool) :
    (RawWrite t m b f).length = 20 + m.length + b.length := by
  simp [RawWrite, magicBytes, leEncode_length]
  omega

theorem length_le_encodeRecords (c : Codec) (rs : List (Record × Bool)) :
    rs.length ≤ (encodeRecords c rs).length := by
  induction rs with
  | nil => simp [encodeRecords]
  | cons p rest ih =>
    have h1 : 0 < (WriteRecord c p.1 p.2).length := by
      rw [WriteRecord_eq, RawWrite_length]; omega
    simp only [encodeRecords, List.length_append, List.length_cons]
    omega

theorem countLoopF_encode (c : Codec) (hg : GoodCodec c) (rs : List (Record × Bool)) :
    ∀ (fuel : Nat) (total : Int), FitsAll c rs → fuel ≥ rs.length + 1 →
    countLoopF c fuel total (encodeRecords c rs) = .ok (total + rs.length) := by
  induction rs with
  | nil =>
    intro fuel total _ hfuel
    obtain ⟨f, rfl⟩ : ∃ f, fuel = f + 1 := ⟨fuel - 1, by omega⟩
    simp [countLoopF, encodeRecords, Read_nil]
  | cons p rest ih =>
    intro fuel total hfits hfuel
    obtain ⟨f, rfl⟩ : ∃ f, fuel = f + 1 := ⟨fuel - 1, by omega⟩
    have hread := Read_WriteRecord c hg p.1 p.2 (hfits p (by simp)) (encodeRecords c rest)
    have hrec := ih f (total + 1) (fun q hq => hfits q (by simp [hq]))
      (by simp only [List.length_cons] at hfuel; omega)
    simp only [encodeRecords, countLoopF, hread, hrec]
    simp only [List.length_cons]
    congr 1
    push_cast
    omega

theorem skipLoopF_encode (c : Codec) (n : Nat) :
    ∀ (rs : List (Record × Bool)) (fuel : Nat), FitsAll c rs →
    1 ≤ n → n ≤ rs.length → fuel ≥ n →
    skipLoopF fuel (n : Int) (encodeRecords c rs) = .ok (encodeRecords c (rs.drop n)) := by
  induction n with
  | zero => intro rs fuel _ h1 _ _; omega
  | succ n ih =>
    intro rs fuel hfits _ hle hfuel
    match rs, hle with
    | p :: rest, hle2 =>
      obtain ⟨f, rfl⟩ : ∃ f, fuel = f + 1 := ⟨fuel - 1, by omega⟩
      have hskip := skipRead_WriteRecord c p.1 p.2 (hfits p (by simp)) (encodeRecords c rest)
      simp only [encodeRecords, skipLoopF, hskip]
      cases n with
      | zero =>
        rw [if_pos (by omega)]
        rfl
      | succ m =>
        rw [if_neg (by push_cast; omega)]
        have hcast : ((m + 1 + 1 : Nat) : Int) - 1 = ((m + 1 : Nat) : Int) := by
          push_cast; omega
        rw [hcast]
        have := ih rest f (fun q hq => hfits q (by simp [hq])) (by omega)
          (by simp only [List.length_cons] at hle2; omega) (by omega)
        simpa using this

theorem skipLoopF_exhaust (c : Codec) (rs : List (Record × Bool)) :
    ∀ (start : Int) (fuel : Nat), FitsAll c rs →
    start > rs.length → fuel ≥ rs.length + 1 →
    skipLoopF fuel start (encodeRecords c rs) = .error .eof := by
  induction rs with
  | nil =>
    intro start fuel _ hgt hfuel
    obtain ⟨f, rfl⟩ : ∃ f, fuel = f + 1 := ⟨fuel - 1, by omega⟩
    simp [skipLoopF, encodeRecords, skipRead_nil]
  | cons p rest ih =>
    intro start fuel hfits hgt hfuel
    obtain ⟨f, rfl⟩ : ∃ f, fuel = f + 1 := ⟨fuel - 1, by omega⟩
    have hskip := skipRead_WriteRecord c p.1 p.2 (hfits p (by simp)) (encodeRecords c rest)
    simp only [encodeRecords, skipLoopF, hskip]
    rw [if_neg (by simp at hgt; omega)]
    exact ih (start - 1) f (fun q hq => hfits q (by simp [hq]))
      (by simp only [List.length_cons] at hgt; push_cast at hgt ⊢; omega)
      (by simp only [List.length_cons] at hfuel; omega)

theorem collectLoopF_premature (c : Codec) (hg : GoodCodec c) (allow : Bool)
    (rs : List (Record × Bool)) :
    ∀ (acc : List Record) (count : Int) (fuel : Nat), FitsAll c rs →
    count > rs.length → fuel ≥ rs.length + 1 →
    collectLoopF c allow fuel acc count (encodeRecords c rs) =
      if allow then .ok (acc ++ rs.map (fun p => truncRec p.1)) else .error .eof := by
  induction rs with
  | nil =>
    intro acc count fuel _ hgt hfuel
    obtain ⟨f, rfl⟩ : ∃ f, fuel = f + 1 := ⟨fuel - 1, by omega⟩
    cases allow <;> simp [collectLoopF, encodeRecords, Read_nil]
  | cons p rest ih =>
    intro acc count fuel hfits hgt hfuel
    obtain ⟨f, rfl⟩ : ∃ f, fuel = f + 1 := ⟨fuel - 1, by omega⟩
    have hread := Read_WriteRecord c hg p.1 p.2 (hfits p (by simp)) (encodeRecords c rest)
    simp only [encodeRecords, collectLoopF, hread]
    rw [if_neg (by simp at hgt; omega)]
    have := ih (acc ++ [truncRec p.1]) (count - 1) f (fun q hq => hfits q (by simp [hq]))
      (by simp only [List.length_cons] at hgt; push_cast at hgt ⊢; omega)
      (by simp only [List.length_cons] at hfuel; omega)
    rw [this]
    cases allow <;> simp

end GoSrf
namespace GoSrf

/-- C6: for every N and every stream that is the concatenation of N
well-formed records (any mix of compression settings, with or without
metadata), `Count` returns exactly N with no error. -/
theorem count_exact (c : Codec) (hg : GoodCodec c) (rs : List (Record × Bool))
    (hfits : FitsAll c rs) :
    Count c (encodeRecords c rs) = .ok (rs.length : Int) := by
  unfold Count
  have h := countLoopF_encode c hg rs ((encodeRecords c rs).length + 1) 0 hfits
    (by have := length_le_encodeRecords c rs; omega)
  simpa using h

theorem count_exact_witness :
    GoodCodec tagCodec ∧
    Count tagCodec (encodeRecords tagCodec
      [(⟨1, [], [10]⟩, false), (⟨2, [5], [6, 7]⟩, true)]) = .ok 2 := by
  have hg : GoodCodec tagCodec := ⟨fun b => rfl, fun b => by simp [tagCodec]⟩
  refine ⟨hg, ?_⟩
  have h := count_exact tagCodec hg
    [(⟨1, [], [10]⟩, false), (⟨2, [5], [6, 7]⟩, true)]
    (by intro p hp; fin_cases hp <;> constructor <;> decide)
  simpa using h

/-- C9: `Extract` and `Copy` with `start < 0` fail with `InvalidStartOffset`,
and with `count < 1` fail with `InvalidCount`; the checks run before any
stream access, so the result is the same error for every stream `s` and the
cursor is untouched. -/
theorem eager_validation (c : Codec) (s : List Nat) (start count : Int)
    (compress allow : Bool) :
    (start < 0 →
      Extract c s start count allow = .error .invalidStartOffset ∧
      Copy c s start count compress allow = .error .invalidStartOffset) ∧
    (0 ≤ start → count < 1 →
      Extract c s start count allow = .error .invalidCount ∧
      Copy c s start count compress allow = .error .invalidCount) := by
  constructor
  · intro hneg
    constructor <;> simp [Extract, Copy, if_pos hneg]
  · intro hge hlt
    constructor <;>
      simp [Extract, Copy, if_neg (not_lt.mpr hge), if_pos hlt]

theorem eager_validation_witness :
    Extract tagCodec [9, 9] (-1) 1 false = .error .invalidStartOffset ∧
    Copy tagCodec [9, 9] (-1) 1 true false = .error .invalidStartOffset ∧
    Extract tagCodec [9, 9] 0 0 false = .error .invalidCount ∧
    Copy tagCodec [9, 9] 0 0 true false = .error .invalidCount := by
  have h1 := (eager_validation tagCodec [9, 9] (-1) 1 true false).1 (by norm_num)
  have h2 := (eager_validation tagCodec [9, 9] 0 0 true false).2 (by norm_num) (by norm_num)
  exact ⟨h1.1, h1.2, h2.1, h2.2⟩

/-- C10: `Write` panics (rather than returning an error) when `meta` is a
non-nil interface holding a value of a kind on which `reflect.Value.IsNil` is
undefined (struct, array, scalars); it is safe exactly for the untyped nil and
for nilable kinds (pointer, map, slice, chan, func, interface, unsafe
pointer). -/
theorem write_meta_panic (c : Codec) (t : Nat) (data json : List Nat)
    (compress : Bool) :
    (∀ k, nilable k = false → ∀ isNilValue,
      Write c t data (GoMeta.value k isNilValue json) compress = .panicked) ∧
    Write c t data (GoMeta.value GoKind.struct false json) compress = .panicked ∧
    Write c t data GoMeta.nil compress ≠ .panicked ∧
    (∀ k, nilable k = true → ∀ isNilValue,
      Write c t data (GoMeta.value k isNilValue json) compress ≠ .panicked) := by
  refine ⟨?_, ?_, ?_, ?_⟩
  · intro k hk isNilValue
    simp [Write, hk]
  · simp [Write, nilable]
  · simp [Write]
  · intro k hk isNilValue
    simp [Write, hk]

theorem write_meta_panic_witness :
    Write tagCodec 1 [1] (GoMeta.value GoKind.struct false [2]) false = .panicked ∧
    Write tagCodec 1 [1] (GoMeta.value GoKind.array false [2]) false = .panicked ∧
    Write tagCodec 1 [1] GoMeta.nil false ≠ .panicked ∧
    Write tagCodec 1 [1] (GoMeta.value GoKind.ptr false [2]) false ≠ .panicked := by
  have h := write_meta_panic tagCodec 1 [1] [2] false
  exact ⟨h.2.1, h.1 GoKind.array rfl false, h.2.2.1, h.2.2.2 GoKind.ptr rfl false⟩

end GoSrf
namespace GoSrf

theorem tagCodec_good : GoodCodec tagCodec :=
  ⟨fun b => rfl, fun b => by simp [tagCodec]⟩

/-- C5: on a stream of exactly M well-formed records with M < start + count
(start ≥ 1, count ≥ 1), `Extract` with `allowPrematureEnd = true` returns
exactly `max 0 (M - start)` records with no error, and with
`allowPrematureEnd = false` fails with the end-of-stream error. -/
theorem extract_premature_end (c : Codec) (hg : GoodCodec c)
    (rs : List (Record × Bool)) (hfits : FitsAll c rs) (start count : Int)
    (hs : 1 ≤ start) (hc : 1 ≤ count) (hM : (rs.length : Int) < start + count) :
    (∃ out, Extract c (encodeRecords c rs) start count true = .ok out ∧
      (out.length : Int) = max 0 ((rs.length : Int) - start)) ∧
    Extract c (encodeRecords c rs) start count false = .error .eof := by
  have hlen := length_le_encodeRecords c rs
  have hval : ∀ allow, Extract c (encodeRecords c rs) start count allow =
      match skipLoopF ((encodeRecords c rs).length + 1) start (encodeRecords c rs) with
      | .error e => if e = Err.eof then (if allow then .ok [] else .error Err.eof)
                    else .error e
      | .ok s1 => collectLoopF c allow (s1.length + 1) [] count s1 := by
    intro allow
    unfold Extract
    rw [if_neg (by omega), if_neg (by omega), if_pos (by omega)]
  by_cases hcase : start ≤ (rs.length : Int)
  · -- the skip phase succeeds, the collect phase ends prematurely
    obtain ⟨n, rfl⟩ : ∃ n : Nat, start = (n : Int) :=
      ⟨start.toNat, (Int.toNat_of_nonneg (by omega)).symm⟩
    have hn1 : 1 ≤ n := by omega
    have hnle : n ≤ rs.length := by omega
    have hskip := skipLoopF_encode c n rs ((encodeRecords c rs).length + 1) hfits
      hn1 hnle (by omega)
    have hdlen : (rs.drop n).length = rs.length - n := List.length_drop n rs
    have hcol : ∀ allow, collectLoopF c allow
        ((encodeRecords c (rs.drop n)).length + 1) [] count
        (encodeRecords c (rs.drop n)) =
        if allow then .ok ((rs.drop n).map fun p => truncRec p.1)
        else .error .eof := by
      intro allow
      have h := collectLoopF_premature c hg allow (rs.drop n) [] count
        ((encodeRecords c (rs.drop n)).length + 1)
        (fun q hq => hfits q (List.mem_of_mem_drop hq))
        (by rw [hdlen]; omega)
        (by have := length_le_encodeRecords c (rs.drop n); omega)
      simpa using h
    constructor
    · refine ⟨(rs.drop n).map fun p => truncRec p.1, ?_, ?_⟩
      · rw [hval true, hskip]
        simpa using hcol true
      · simp only [List.length_map, hdlen]
        omega
    · rw [hval false, hskip]
      simpa using hcol false
  · -- the skip phase itself runs off the end of the stream
    have hskip := skipLoopF_exhaust c rs start ((encodeRecords c rs).length + 1)
      hfits (by omega) (by omega)
    constructor
    · refine ⟨[], ?_, ?_⟩
      · rw [hval true, hskip]
        simp
      · simp
        omega
    · rw [hval false, hskip]
      simp

theorem extract_premature_end_witness :
    Extract tagCodec (encodeRecords tagCodec
      [(⟨1, [], [10]⟩, false), (⟨1, [], [20]⟩, false)]) 1 5 true =
      .ok [⟨1, [], [20]⟩] ∧
    Extract tagCodec (encodeRecords tagCodec
      [(⟨1, [], [10]⟩, false), (⟨1, [], [20]⟩, false)]) 1 5 false =
      .error .eof := by
  have h := extract_premature_end tagCodec tagCodec_good
    [(⟨1, [], [10]⟩, false), (⟨1, [], [20]⟩, false)]
    (by intro p hp; fin_cases hp <;> constructor <;> decide)
    1 5 (by norm_num) (by norm_num) (by norm_num)
  exact ⟨rfl, h.2⟩

end GoSrf
namespace GoSrf

/-- C4: a record written by `Write` — any type in [0,255], any body, any
JSON-serializable metadata (its marshalled bytes `json`) or none, either
compression setting — reads back with the same type, the same body bytes and
the same metadata bytes (so metadata compares equal after JSON re-decoding). -/
theorem write_read_roundtrip (c : Codec) (hg : GoodCodec c) (t : Nat)
    (ht : t ≤ 255) (data json : List Nat) (k : GoKind) (hk : nilable k = true)
    (compress : Bool)
    (hm : (c.encodeAll json).length < 2 ^ 32)
    (hb : (if compress then (c.encodeAll data).length else data.length) < 2 ^ 64) :
    (∃ w, Write c t data (GoMeta.value k false json) compress = .ok w ∧
      Read c w = .ok ({ recordType := t, meta := json, body := data }, [])) ∧
    (∃ w, Write c t data GoMeta.nil compress = .ok w ∧
      Read c w = .ok ({ recordType := t, meta := [], body := data }, [])) := by
  obtain ⟨hrt, hne⟩ := hg
  have hmod : t % 256 = t := Nat.mod_eq_of_lt (by omega)
  have hb2 : (if compress then c.encodeAll data else data).length < 2 ^ 64 := by
    cases compress <;> simpa using hb
  have hbody : if compress then
      c.decodeAll (if compress then c.encodeAll data else data) = .ok data
      else data = (if compress then c.encodeAll data else data) := by
    cases compress <;> simp [hrt]
  constructor
  · refine ⟨RawWrite t (c.encodeAll json)
      (if compress then c.encodeAll data else data) compress, ?_, ?_⟩
    · simp [Write, hk]
    · have h := Read_RawWrite c t compress (c.encodeAll json)
        (if compress then c.encodeAll data else data) [] hm hb2 json data
        (by simp [List.isEmpty_iff, hne json, hrt json]) hbody
      rw [List.append_nil] at h
      rw [h, hmod]
  · refine ⟨RawWrite t []
      (if compress then c.encodeAll data else data) compress, ?_, ?_⟩
    · simp [Write]
    · have h := Read_RawWrite c t compress []
        (if compress then c.encodeAll data else data) [] (by simp) hb2 [] data
        (by simp) hbody
      rw [List.append_nil] at h
      rw [h, hmod]

theorem write_read_roundtrip_witness :
    Write tagCodec 3 [1, 2] (GoMeta.value GoKind.map false [34, 97, 34]) true =
      .ok (RawWrite 3 [0, 34, 97, 34] [0, 1, 2] true) ∧
    Read tagCodec (RawWrite 3 [0, 34, 97, 34] [0, 1, 2] true) =
      .ok ({ recordType := 3, meta := [34, 97, 34], body := [1, 2] }, []) := by
  have h := (write_read_roundtrip tagCodec tagCodec_good 3 (by norm_num)
    [1, 2] [34, 97, 34] GoKind.map rfl true (by decide) (by decide)).1
  obtain ⟨w, hw, hr⟩ := h
  have hwval : w = RawWrite 3 [0, 34, 97, 34] [0, 1, 2] true := by
    have : Write tagCodec 3 [1, 2] (GoMeta.value GoKind.map false [34, 97, 34]) true =
        .ok (RawWrite 3 [0, 34, 97, 34] [0, 1, 2] true) := rfl
    rw [this] at hw
    cases hw
    rfl
  rw [hwval] at hr
  exact ⟨by rw [← hwval]; exact hw, hr⟩

/-- C7: metadata, when present, is always stored as a compressed frame on the
wire, for `Write` and `WriteRecord` alike and regardless of the
body-compression flag; and `Read` decompresses the metadata block whenever
`metaLength > 0`, independent of the body-compressed flag. -/
theorem meta_always_compressed (c : Codec) (t : Nat) (data json : List Nat)
    (k : GoKind) (hk : nilable k = true) (compress : Bool) (r : Record)
    (hr : r.meta ≠ []) :
    Write c t data (GoMeta.value k false json) compress =
      .ok (RawWrite t (c.encodeAll json)
        (if compress then c.encodeAll data else data) compress) ∧
    WriteRecord c r compress =
      RawWrite r.recordType (c.encodeAll r.meta)
        (if compress then c.encodeAll r.body else r.body) compress ∧
    (∀ rawMeta rawBody mm bb : List Nat, rawMeta ≠ [] →
      rawMeta.length < 2 ^ 32 → rawBody.length < 2 ^ 64 →
      c.decodeAll rawMeta = .ok mm →
      (if compress then c.decodeAll rawBody = .ok bb else bb = rawBody) →
      Read c (RawWrite t rawMeta rawBody compress) =
        .ok ({ recordType := t % 256, meta := mm, body := bb }, [])) := by
  refine ⟨?_, ?_, ?_⟩
  · simp [Write, hk]
  · rw [WriteRecord_eq, if_neg (by simpa [List.isEmpty_iff] using hr)]
  · intro rawMeta rawBody mm bb hne hm hb hdm hdb
    have h := Read_RawWrite c t compress rawMeta rawBody [] hm hb mm bb
      (by rw [if_neg (by simpa [List.isEmpty_iff] using hne)]; exact hdm) hdb
    rwa [List.append_nil] at h

theorem meta_always_compressed_witness :
    Write tagCodec 1 [9] (GoMeta.value GoKind.slice false [55]) false =
      .ok (RawWrite 1 [0, 55] [9] false) ∧
    WriteRecord tagCodec ⟨1, [55], [9]⟩ false =
      RawWrite 1 [0, 55] [9] false ∧
    Read tagCodec (RawWrite 1 [0, 55] [9] false) =
      .ok ({ recordType := 1, meta := [55], body := [9] }, []) := by
  have h := meta_always_compressed tagCodec 1 [9] [55] GoKind.slice rfl false
    ⟨1, [55], [9]⟩ (by decide)
  exact ⟨h.1, h.2.1, h.2.2 [0, 55] [9] [55] [9] (by decide) (by decide) (by decide)
    rfl rfl⟩

/-- C8: `Write` stores only the low 8 bits of the record type in the header
word — values above 255 are silently truncated modulo 256 with no error — and
a record written with type t reads back with type t mod 256. -/
theorem type_truncation (c : Codec) (hg : GoodCodec c) (t : Nat)
    (_ht : t < 2 ^ 16) (data : List Nat) (compress : Bool)
    (hb : (if compress then (c.encodeAll data).length else data.length) < 2 ^ 64) :
    headerWord t compress &&& 0xFF = t % 256 ∧
    (∃ w, Write c t data GoMeta.nil compress = .ok w ∧
      Read c w = .ok ({ recordType := t % 256, meta := [], body := data }, [])) := by
  obtain ⟨hrt, hne⟩ := hg
  have hb2 : (if compress then c.encodeAll data else data).length < 2 ^ 64 := by
    cases compress <;> simpa using hb
  refine ⟨headerWord_low t compress, ?_⟩
  refine ⟨RawWrite t [] (if compress then c.encodeAll data else data) compress, ?_, ?_⟩
  · simp [Write]
  · have h := Read_RawWrite c t compress []
      (if compress then c.encodeAll data else data) [] (by simp) hb2 [] data
      (by simp) (by cases compress <;> simp [hrt])
    rwa [List.append_nil] at h

theorem type_truncation_witness :
    headerWord 300 false &&& 0xFF = 44 ∧
    Write tagCodec 300 [6] GoMeta.nil false = .ok (RawWrite 300 [] [6] false) ∧
    Read tagCodec (RawWrite 300 [] [6] false) =
      .ok ({ recordType := 44, meta := [], body := [6] }, []) := by
  have h := type_truncation tagCodec tagCodec_good 300 (by norm_num) [6] false
    (by decide)
  obtain ⟨hlow, w, hw, hr⟩ := h
  have hwval : w = RawWrite 300 [] [6] false := by
    have hvv : Write tagCodec 300 [6] GoMeta.nil false =
        .ok (RawWrite 300 [] [6] false) := rfl
    rw [hvv] at hw
    cases hw
    rfl
  rw [hwval] at hr
  exact ⟨hlow, by rw [← hwval]; exact hw, hr⟩

end GoSrf
namespace GoSrf

/-- C3 counterexample: a header whose magic is intact and whose type+flags
word has reserved bit 8 flipped from zero to one (word value 2^8 + 1) is read
back successfully — `Read` and `skipRead` do not fail with the reserved-bits
error, because the source validates only bits 16–22. -/
theorem reserved_bit8_not_detected :
    Read tagCodec (magicBytes ++ leEncode 4 (2 ^ 8 + 1) ++ leEncode 4 0 ++
        leEncode 8 0) =
      .ok ({ recordType := 1, meta := [], body := [] }, []) ∧
    skipRead (magicBytes ++ leEncode 4 (2 ^ 8 + 1) ++ leEncode 4 0 ++
        leEncode 8 0) = .ok [] := ⟨rfl, rfl⟩

/-- C3 amended: flipping any single bit among bits 16–22 of an otherwise
valid type+flags word makes `Read` and `skipRead` fail with the
reserved-bits error, and corrupting the 4 magic bytes (any 4-byte prefix
other than the magic) makes `Read` fail with the invalid-header error; bits
8–15 and 23–30 are not validated. -/
theorem reserved_bits_16_22_and_magic (c : Codec) (t0 : Nat) (ht : t0 < 256)
    (f : Bool) (i : Nat) (h16 : 16 ≤ i) (h22 : i ≤ 22) (rest : List Nat) :
    Read c (magicBytes ++ leEncode 4 (headerWord t0 f + 2 ^ i) ++ rest) =
      .error .invalidZeroBits ∧
    skipRead (magicBytes ++ leEncode 4 (headerWord t0 f + 2 ^ i) ++ rest) =
      .error .invalidZeroBits ∧
    (∀ b4 rest2 : List Nat, b4.length = 4 → b4 ≠ magicBytes →
      Read c (b4 ++ rest2) = .error .invalidHeader ∧
      skipRead (b4 ++ rest2) = .error .invalidHeader) := by
  have hlt : headerWord t0 f + 2 ^ i < 2 ^ 32 := by
    rw [headerWord_eq]
    have h1 : t0 % 256 < 256 := Nat.mod_lt t0 (by omega)
    have h2 : (2 : Nat) ^ i ≤ 2 ^ 22 := Nat.pow_le_pow_right (by omega) h22
    cases f <;> simp [two_pow_31] <;> norm_num at h2 ⊢ <;> omega
  have hcond : ((headerWord t0 f + 2 ^ i) >>> 16) &&& 0x7F ≠ 0 := by
    rw [shiftr_pow, land127, headerWord_eq, two_pow_16]
    have h1 : t0 % 256 = t0 := Nat.mod_eq_of_lt ht
    rw [h1]
    interval_cases i <;> cases f <;> simp [two_pow_31] <;> omega
  have hassoc : magicBytes ++ leEncode 4 (headerWord t0 f + 2 ^ i) ++ rest =
      magicBytes ++ (leEncode 4 (headerWord t0 f + 2 ^ i) ++ rest) := by
    simp
  refine ⟨?_, ?_, ?_⟩
  · rw [hassoc]
    simp only [Read, validateHeader_append,
      readFull_append 4 (leEncode 4 (headerWord t0 f + 2 ^ i)) _ (leEncode_length 4 _),
      leDecode_leEncode4 _ hlt]
    rw [if_pos hcond]
  · rw [hassoc]
    simp only [skipRead, validateHeader_append,
      readFull_append 4 (leEncode 4 (headerWord t0 f + 2 ^ i)) _ (leEncode_length 4 _),
      leDecode_leEncode4 _ hlt]
    rw [if_pos hcond]
  · intro b4 rest2 hlen hne
    have hv : validateHeader (b4 ++ rest2) = .error .invalidHeader := by
      simp only [validateHeader, readFull_append 4 b4 rest2 hlen]
      rw [if_neg hne]
    constructor
    · simp only [Read, hv]
    · simp only [skipRead, hv]

theorem reserved_bits_16_22_and_magic_witness :
    Read tagCodec (magicBytes ++ leEncode 4 (headerWord 1 false + 2 ^ 16) ++ []) =
      .error .invalidZeroBits ∧
    Read tagCodec ([83, 82, 70, 49] ++ []) = .error .invalidHeader := by
  have h := reserved_bits_16_22_and_magic tagCodec 1 (by norm_num) false 16
    (by norm_num) (by norm_num) []
  exact ⟨h.1, (h.2.2 [83, 82, 70, 49] [] (by decide) (by decide)).1⟩

end GoSrf
namespace GoSrf

/-- C1 (divergence at the failing input): on a two-record stream, `Copy` with
start = 1 skips nothing — the source guards its skip loop with `start > 1` —
and re-emits the first record, while `Extract` with start = 1 (guard
`start > 0`) skips the first record and returns the second; the two emitted
records differ. -/
theorem copy_start_one_skips_nothing :
    Copy tagCodec (encodeRecords tagCodec
        [(⟨1, [], [10]⟩, false), (⟨1, [], [20]⟩, false)]) 1 1 false false =
      .ok (WriteRecord tagCodec ⟨1, [], [10]⟩ false) ∧
    Extract tagCodec (encodeRecords tagCodec
        [(⟨1, [], [10]⟩, false), (⟨1, [], [20]⟩, false)]) 1 1 false =
      .ok [⟨1, [], [20]⟩] ∧
    WriteRecord tagCodec ⟨1, [], [10]⟩ false ≠
      WriteRecord tagCodec ⟨1, [], [20]⟩ false := by
  refine ⟨rfl, rfl, by decide⟩

/-- C2 counterexample: a record with metaLength = 0 and bodyLength = 2 is 22
bytes on the wire (20 header bytes, not 16, plus the body), and `skipRead`
over a flat reader consumes all 22, not 16 + 0 + 2; moreover over a chunked
reader that delivers the first 21 bytes in one chunk and the last body byte
in a second chunk, the single payload `Read` call accepts a short read and
`skipRead` returns with the last byte still unconsumed — the cursor is inside
the record, not at the next boundary. -/
theorem skipRead_consumption_counterexample :
    (RawWrite 1 [] [7, 8] false).length = 22 ∧
    skipRead (RawWrite 1 [] [7, 8] false) = .ok [] ∧
    (16 + 0 + 2 : Nat) ≠ 22 ∧
    skipReadC [(RawWrite 1 [] [7, 8] false).take 21, [8]] = .ok [[8]] := by
  refine ⟨rfl, rfl, by decide, rfl⟩

/-- C2 amended: over a reader whose every `Read` call returns the full
requested byte count (the flat list reader), `skipRead` consumes exactly one
whole record — the 20 header bytes plus `metaLength + bodyLength` payload
bytes — leaving the cursor at the next record boundary; the guarantee does
not extend to general readers, whose single short read under-consumes (see
the counterexample). -/
theorem skipRead_exact_on_full_reads (rType : Nat) (flag : Bool)
    (rawMeta rawRecord ext : List Nat)
    (hm : rawMeta.length < 2 ^ 32) (hr : rawRecord.length < 2 ^ 64) :
    skipRead (RawWrite rType rawMeta rawRecord flag ++ ext) = .ok ext ∧
    (RawWrite rType rawMeta rawRecord flag).length =
      20 + rawMeta.length + rawRecord.length :=
  ⟨skipRead_RawWrite rType flag rawMeta rawRecord ext hm hr,
   RawWrite_length rType rawMeta rawRecord flag⟩

theorem skipRead_exact_on_full_reads_witness :
    skipRead (RawWrite 2 [3] [7, 8] true ++ [9, 9]) = .ok [9, 9] ∧
    (RawWrite 2 [3] [7, 8] true).length = 20 + 1 + 2 :=
  skipRead_exact_on_full_reads 2 true [3] [7, 8] [9, 9] (by decide) (by decide)

end GoSrf
